import Mathlib

/-!
Verification of the cluster membership and request-routing core of the
mnemosyne session daemon, together with the daemon option-normalisation
logic of `mnemosyned/daemon.go`.

The cluster package itself (`internal/cluster`) ships only its tests here,
so its data model and operations are modelled from the specification
(sections 3, 4.1, 4.2 and 7 of the spec); every such definition carries a
doc comment starting with `Modelled from the spec:`.  The daemon logic
(`NewDaemon`, `setPostgresConnectionParameters`) is embedded from
`mnemosyned/daemon.go` directly; the parts of Go's `net/url` package that
`setPostgresConnectionParameters` calls are modelled for the class of
addresses the daemon handles (no percent-escapes, no URL fragments; parse
failure is modelled as the presence of an ASCII control character, Go's
primary rejection rule).
-/

/-- Byte-lexicographic strict comparison of two character lists.  This is the
model of Go's `<` on strings: Go compares UTF-8 bytes, and UTF-8 byte order
coincides with code-point order, which is what is compared here. -/
def lexLt : List Char → List Char → Bool
  | [], [] => false
  | [], _ :: _ => true
  | _ :: _, [] => false
  | a :: as, b :: bs => if a < b then true else if b < a then false else lexLt as bs

/-- Modelled from the spec: the "lexicographic byte order" on addresses used
to sort the Ring (spec section 3), in its non-strict form. -/
def strLe (a b : String) : Prop := lexLt b.data a.data = false

/-- Modelled from the spec: the "lexicographic byte order" on addresses used
to sort the Ring (spec section 3), in its strict form. -/
def strLt (a b : String) : Prop := lexLt a.data b.data = true

instance : DecidableRel strLe := fun _ _ => inferInstanceAs (Decidable (_ = false))

instance : DecidableRel strLt := fun _ _ => inferInstanceAs (Decidable (_ = true))

/-- Modelled from the spec: a `Node` is one peer's address together with the
self flag (spec section 3).  The lazily attached RPC client is connection
state outside the pure ring model and is omitted. -/
structure Node where
  addr : String
  self : Bool
deriving DecidableEq

/-- Modelled from the spec: a `Cluster` owns the listen address and the Ring,
an ordered sequence of Nodes (spec sections 3 and 4.4). -/
structure Cluster where
  listen : String
  nodes : List Node
deriving DecidableEq

/-- Modelled from the spec: the error kinds `New` can raise (spec sections
4.1 and 7): `ConfigError` for an empty listen address, `ErrEmpty` for an
empty membership set, `ErrNoSelf` when the listen address is missing from
the membership set. -/
inductive NewError where
  | configEmptyListen
  | errEmpty
  | errNoSelf
deriving DecidableEq

/-- Modelled from the spec: Ring construction steps 1, 3 and 4 of spec
section 4.1 - union the listen address with the seeds, deduplicate by exact
string equality, sort lexicographically ascending, and emit Nodes with
`Self = true` iff the address equals the listen address. -/
def ringOf (listen : String) (seeds : List String) : List Node :=
  (List.insertionSort strLe ((listen :: seeds).dedup)).map (fun a => ⟨a, a == listen⟩)

/-- Modelled from the spec: `New(Listen, Seeds)` of spec section 4.1 with the
error cases of spec section 7 - reject an empty listen address with a
`ConfigError`, reject an empty membership union with `ErrEmpty`, reject a
union missing the listen address with `ErrNoSelf`, and otherwise build the
sorted Ring. -/
def clusterNew (listen : String) (seeds : List String) : Except NewError Cluster :=
  if listen = "" then .error .configEmptyListen
  else if ((listen :: seeds).dedup).isEmpty then .error .errEmpty
  else if listen ∉ (listen :: seeds).dedup then .error .errNoSelf
  else .ok ⟨listen, ringOf listen seeds⟩

instance : DecidableEq (Except NewError Cluster) := fun a b =>
  match a, b with
  | .error x, .error y =>
    if h : x = y then isTrue (congrArg Except.error h)
    else isFalse (fun hc => h (by injection hc))
  | .ok x, .ok y =>
    if h : x = y then isTrue (congrArg Except.ok h)
    else isFalse (fun hc => h (by injection hc))
  | .error _, .ok _ => isFalse (fun hc => by injection hc)
  | .ok _, .error _ => isFalse (fun hc => by injection hc)

/-- Modelled from the spec: `Get(k)` of spec section 4.2 - the Node at index
`k mod Len` under the non-negative modulus, with `ok = false` iff the ring
is empty.  The Go `int32` key is modelled as an integer; `Int.emod` is the
non-negative modulus the spec prescribes. -/
def clusterGet (c : Cluster) (k : Int) : Option Node :=
  if c.nodes.length = 0 then none
  else c.nodes[(k % (c.nodes.length : Int)).toNat]?

/-- Modelled from the spec: the stable token hash of spec section 4.2, pinned
to 32-bit FNV-1a over the token's UTF-8 bytes (the example hash the spec
names); the spec leaves the concrete hash open and no routing property
proved below depends on the choice. -/
def fnv1a32 (t : String) : Nat :=
  (t.data.flatMap String.utf8EncodeChar).foldl
    (fun h b => ((h ^^^ b.toNat) * 16777619) % 4294967296) 2166136261

/-- Modelled from the spec: `GetOther(token)` of spec section 4.2 - hash the
token, look the owner up with `Get`, and report `(_, false)` when the owner
is the local node. -/
def getOther (c : Cluster) (t : String) : Option Node :=
  match clusterGet c (Int.ofNat (fnv1a32 t)) with
  | none => none
  | some n => if n.self then none else some n

/-- ASCII control characters (including DEL), the inputs Go's `url.Parse`
rejects; used as the parse-failure model. -/
def isCtlChar (c : Char) : Bool := c.toNat < 32 || c.toNat == 127

/-- Splits a character list at the first occurrence of `c`: returns the part
before it and, when `c` occurs, the part after it.  Models `strings.Cut`. -/
def splitAtFirst (c : Char) : List Char → List Char × Option (List Char)
  | [] => ([], none)
  | x :: xs =>
    if x = c then ([], some xs)
    else
      let r := splitAtFirst c xs
      (x :: r.1, r.2)

/-- Model of a parsed Go URL, restricted to what
`setPostgresConnectionParameters` touches: the part before the first
question mark, kept verbatim, and the raw query after it. -/
structure GoURL where
  beforeQuery : List Char
  rawQuery : List Char
deriving DecidableEq

/-- Model of Go's `url.Parse` for fragment-free addresses: fails on ASCII
control characters and otherwise splits the address at the first question
mark into the verbatim prefix and the raw query. -/
def urlParse (s : List Char) : Option GoURL :=
  if s.any isCtlChar then none
  else
    match splitAtFirst '?' s with
    | (b, none) => some ⟨b, []⟩
    | (b, some q) => some ⟨b, q⟩

/-- Model of Go's `URL.String` for the URLs of `urlParse`: the verbatim
prefix, followed by the raw query behind a question mark when non-empty. -/
def urlString (u : GoURL) : List Char :=
  u.beforeQuery ++ (if u.rawQuery.isEmpty then [] else '?' :: u.rawQuery)

/-- Splits a character list on every occurrence of `c`. -/
def splitAll (c : Char) : List Char → List (List Char)
  | [] => [[]]
  | x :: xs =>
    match splitAll c xs with
    | [] => [[]]
    | h :: t => if x = c then [] :: h :: t else (x :: h) :: t

/-- Processing of one ampersand-separated query component by the model of
Go's query parsing: skip it when it contains a semicolon (Go reports and
drops such components) or is empty, and otherwise split it at its first
equals sign into key and value. -/
def parseQueryComp (comp : List Char) : Option (List Char × List Char) :=
  if comp.contains ';' then none
  else if comp.isEmpty then none
  else
    match splitAtFirst '=' comp with
    | (k, none) => some (k, [])
    | (k, some v) => some (k, v)

/-- Model of Go's `url.Values` query parsing as performed by `URL.Query`:
split the raw query on ampersands and process each component.
Percent-decoding is not modelled (the addresses in scope carry no
escapes). -/
def parseQuery (q : List Char) : List (List Char × List Char) :=
  (splitAll '&' q).filterMap parseQueryComp

/-- Key order used by the model of `url.Values.Encode`, which writes keys in
sorted order. -/
def pairKeyLt (p q : List Char × List Char) : Prop := lexLt p.1 q.1 = true

instance : DecidableRel pairKeyLt := fun _ _ => inferInstanceAs (Decidable (_ = true))

/-- Renders one query pair as `key=value`. -/
def encodePair (p : List Char × List Char) : List Char := p.1 ++ '=' :: p.2

/-- Joins rendered query components with ampersands. -/
def joinAmp : List (List Char) → List Char
  | [] => []
  | [x] => x
  | x :: y :: t => x ++ '&' :: joinAmp (y :: t)

/-- Model of Go's `url.Values.Encode`: render every pair as `key=value` in
key-sorted order (insertion before the first strictly greater key keeps
equal keys in their original order, as Go's per-key value slices do) and
join with ampersands.  Percent-encoding is not modelled. -/
def encodeQuery (ps : List (List Char × List Char)) : List Char :=
  joinAmp ((List.insertionSort pairKeyLt ps).map encodePair)

/-- The characters of the query key `timezone`. -/
def timezoneKey : List Char := ['t', 'i', 'm', 'e', 'z', 'o', 'n', 'e']

/-- The characters of the query value `utc`. -/
def utcValue : List Char := ['u', 't', 'c']

/-- Model of `v.Set("timezone", "utc")` on the parsed query: drop every pair
keyed `timezone` and record the single pair `timezone=utc`. -/
def setTimezoneUTC (ps : List (List Char × List Char)) : List (List Char × List Char) :=
  (ps.filter fun p => p.1 != timezoneKey) ++ [(timezoneKey, utcValue)]

/-- Embedding of `Daemon.setPostgresConnectionParameters` from
`mnemosyned/daemon.go`: parse the address, set the `timezone` query
parameter to `utc`, re-encode the query and re-render the address;
propagate the parse error. -/
def setPostgresConnectionParameters (addr : String) : Option String :=
  match urlParse addr.data with
  | none => none
  | some u =>
    some ⟨urlString ⟨u.beforeQuery, encodeQuery (setTimezoneUTC (parseQuery u.rawQuery))⟩⟩

/-- Modelled from the spec: the repository's default session time-to-live
constant is not under `src/` and the spec fixes no value; any fixed nonzero
duration serves, here 24 minutes in nanoseconds. -/
def DefaultTTL : Int := 1440000000000

/-- Modelled from the spec: the repository's default session time-to-cleanup
constant is not under `src/` and the spec fixes no value; any fixed nonzero
duration serves, here 1 minute in nanoseconds. -/
def DefaultTTC : Int := 60000000000

/-- Modelled from the spec: the repository's postgres storage-engine name
constant is not under `src/`; any fixed non-empty string serves. -/
def StorageEnginePostgres : String := "postgres"

/-- The fields of `DaemonOpts` (from `mnemosyned/daemon.go`) that
`NewDaemon` reads or rewrites: the session TTL and TTC (Go `time.Duration`,
a 64-bit integer nanosecond count, modelled as `Int`), the storage engine
name and the postgres address.  The remaining fields (listeners, logger,
TLS material, RPC options) are carried by the daemon untouched and are not
part of any claim. -/
structure DaemonOpts where
  sessionTTL : Int
  sessionTTC : Int
  storage : String
  postgresAddress : String
deriving DecidableEq

/-- Embedding of `NewDaemon` from `mnemosyned/daemon.go`: rewrite the
postgres address first (returning its error without constructing a daemon),
then replace a zero session TTL, a zero session TTC and an empty storage
engine by their defaults.  The daemon is represented by the option record it
stores. -/
def newDaemon (opts : DaemonOpts) : Option DaemonOpts :=
  match setPostgresConnectionParameters opts.postgresAddress with
  | none => none
  | some addr =>
    some ⟨if opts.sessionTTL = 0 then DefaultTTL else opts.sessionTTL,
          if opts.sessionTTC = 0 then DefaultTTC else opts.sessionTTC,
          if opts.storage = "" then StorageEnginePostgres else opts.storage,
          addr⟩

/-- The listen address of the spec's concrete scenarios A, B and C. -/
def demoListen : String := "172.17.0.1"

/-- The seed list of the spec's concrete scenarios A, B and C. -/
def demoSeeds : List String := ["172.17.0.2", "172.17.0.3", "127.0.0.1", "10.0.0.1", "8.8.8.8"]

/-- The sorted address sequence the spec's scenario B expects. -/
def demoSorted : List String :=
  ["10.0.0.1", "127.0.0.1", "172.17.0.1", "172.17.0.2", "172.17.0.3", "8.8.8.8"]

/-- The cluster of the spec's concrete scenarios A, B and C. -/
def demoCluster : Cluster := ⟨demoListen, ringOf demoListen demoSeeds⟩

/-- Query pairs whose `encodePair` rendering re-parses to themselves: no
ampersand in key or value, no equals sign in the key, and no semicolon in
key or value.  Every pair produced by `parseQuery` is of this shape. -/
def cleanPair (p : List Char × List Char) : Prop :=
  '&' ∉ p.1 ∧ '&' ∉ p.2 ∧ '=' ∉ p.1 ∧ ';' ∉ p.1 ∧ ';' ∉ p.2

instance : DecidablePred cleanPair := fun p => by
  unfold cleanPair
  infer_instance

/-- The byte-lexicographic comparison is irreflexive. -/
theorem lexLt_irrefl : ∀ l : List Char, lexLt l l = false
  | [] => rfl
  | a :: as => by simp [lexLt, lexLt_irrefl as]

/-- Two character lists neither of which is lexicographically below the other
are equal. -/
theorem lexLt_eq_of_false_false :
    ∀ a b : List Char, lexLt a b = false → lexLt b a = false → a = b
  | [], [], _, _ => rfl
  | [], _ :: _, h1, _ => by simp [lexLt] at h1
  | _ :: _, [], _, h2 => by simp [lexLt] at h2
  | a :: as, b :: bs, h1, h2 => by
    by_cases hab : a < b
    · simp only [lexLt] at h1
      rw [if_pos hab] at h1
      exact absurd h1 (by simp)
    · by_cases hba : b < a
      · simp only [lexLt] at h2
        rw [if_pos hba] at h2
        exact absurd h2 (by simp)
      · have hchar : a = b := le_antisymm (not_lt.mp hba) (not_lt.mp hab)
        subst hchar
        simp only [lexLt, if_neg hab] at h1 h2
        rw [lexLt_eq_of_false_false as bs h1 h2]

/-- The byte-lexicographic comparison is asymmetric. -/
theorem lexLt_asymm :
    ∀ a b : List Char, lexLt a b = true → lexLt b a = false
  | [], [], h => by simp [lexLt] at h
  | [], _ :: _, _ => rfl
  | _ :: _, [], h => by simp [lexLt] at h
  | a :: as, b :: bs, h => by
    by_cases hab : a < b
    · simp only [lexLt]
      rw [if_neg (asymm hab), if_pos hab]
    · by_cases hba : b < a
      · simp only [lexLt] at h
        rw [if_neg hab, if_pos hba] at h
        exact absurd h (by simp)
      · simp only [lexLt, if_neg hab, if_neg hba] at h
        simp only [lexLt]
        rw [if_neg hba, if_neg hab]
        exact lexLt_asymm as bs h

/-- Transitivity of the non-strict byte-lexicographic order. -/
theorem lexLt_le_trans :
    ∀ a b c : List Char, lexLt b a = false → lexLt c b = false → lexLt c a = false
  | a, b, [], h1, h2 => by
    cases b with
    | nil => exact h1
    | cons y ys => simp [lexLt] at h2
  | a, [], _ :: _, h1, h2 => by
    cases a with
    | nil => rfl
    | cons x xs => simp [lexLt] at h1
  | [], _ :: _, _ :: _, h1, h2 => rfl
  | a :: as, b :: bs, c :: cs, h1, h2 => by
    by_cases hba : b < a
    · simp only [lexLt] at h1
      rw [if_pos hba] at h1
      exact absurd h1 (by simp)
    · by_cases hcb : c < b
      · simp only [lexLt] at h2
        rw [if_pos hcb] at h2
        exact absurd h2 (by simp)
      · have hab : a ≤ b := not_lt.mp hba
        have hbc : b ≤ c := not_lt.mp hcb
        have hca : ¬ c < a := not_lt.mpr (le_trans hab hbc)
        simp only [lexLt]
        rw [if_neg hca]
        by_cases hac : a < c
        · rw [if_pos hac]
        · have hac' : a = c := le_antisymm (hab.trans hbc) (not_lt.mp hac)
          have hab' : a = b := le_antisymm hab (hbc.trans (not_lt.mp hac))
          subst hab'
          subst hac'
          simp only [lexLt, if_neg hba] at h1 h2
          rw [if_neg hac]
          exact lexLt_le_trans as bs cs h1 h2

instance : IsTotal String strLe :=
  ⟨fun a b => by
    unfold strLe
    cases h : lexLt b.data a.data with
    | false => exact Or.inl rfl
    | true => exact Or.inr (lexLt_asymm b.data a.data h)⟩

instance : IsTrans String strLe :=
  ⟨fun a b c h1 h2 => lexLt_le_trans a.data b.data c.data h1 h2⟩

instance : IsAntisymm String strLe :=
  ⟨fun a b h1 h2 => by
    have hd : a.data = b.data := lexLt_eq_of_false_false a.data b.data h2 h1
    cases a
    cases b
    exact congrArg String.mk hd⟩

/-- A non-strict comparison together with inequality gives the strict one. -/
theorem strLt_of_strLe_ne {a b : String} (h : strLe a b) (hne : a ≠ b) : strLt a b := by
  unfold strLe at h
  unfold strLt
  cases hlt : lexLt a.data b.data with
  | true => rfl
  | false =>
    have hd : a.data = b.data := lexLt_eq_of_false_false a.data b.data hlt h
    refine absurd ?_ hne
    cases a
    cases b
    exact congrArg String.mk hd

/-- The addresses of the Ring are the sorted deduplicated input union. -/
theorem ringOf_map_addr (l : String) (s : List String) :
    (ringOf l s).map Node.addr = List.insertionSort strLe ((l :: s).dedup) := by
  rw [ringOf, List.map_map]
  exact List.map_id' _

/-- The address list of the Ring is a permutation of the deduplicated union. -/
theorem ringOf_map_addr_perm (l : String) (s : List String) :
    ((ringOf l s).map Node.addr).Perm ((l :: s).dedup) := by
  rw [ringOf_map_addr]
  exact List.perm_insertionSort strLe _

/-- The address list of the Ring has no duplicates. -/
theorem ringOf_map_addr_nodup (l : String) (s : List String) :
    ((ringOf l s).map Node.addr).Nodup :=
  (ringOf_map_addr_perm l s).nodup_iff.mpr ((l :: s).nodup_dedup)

/-- The address list of the Ring is sorted strictly ascending. -/
theorem ringOf_map_addr_sorted (l : String) (s : List String) :
    ((ringOf l s).map Node.addr).Sorted strLt := by
  have hs : ((ringOf l s).map Node.addr).Sorted strLe := by
    rw [ringOf_map_addr]
    exact List.sorted_insertionSort strLe _
  have hn := ringOf_map_addr_nodup l s
  exact (hs.and hn).imp fun h => strLt_of_strLe_ne h.1 h.2

/-- Every Ring node carries the self flag exactly when its address is the
listen address. -/
theorem ringOf_self_eq {l : String} {s : List String} {n : Node} (h : n ∈ ringOf l s) :
    n.self = (n.addr == l) := by
  unfold ringOf at h
  rcases List.mem_map.mp h with ⟨a, _, rfl⟩
  rfl

/-- A node returned by `clusterGet` belongs to the ring. -/
theorem clusterGet_mem {c : Cluster} {k : Int} {n : Node} (h : clusterGet c k = some n) :
    n ∈ c.nodes := by
  unfold clusterGet at h
  by_cases hl : c.nodes.length = 0
  · rw [if_pos hl] at h
    exact absurd h (by simp)
  · rw [if_neg hl] at h
    exact List.getElem?_mem h

/-- C5: for every ring and every integer key `k`, including negative keys,
`Get` returns the node stored at index `k mod Len` computed as a
non-negative modulus, and returns no node exactly when `Len = 0`; for
non-empty rings it always returns a node. -/
theorem clusterGet_spec (c : Cluster) (k : Int) :
    (clusterGet c k = none ↔ c.nodes.length = 0) ∧
    (c.nodes.length ≠ 0 →
      0 ≤ k % (c.nodes.length : Int) ∧
      k % (c.nodes.length : Int) < (c.nodes.length : Int) ∧
      ∃ n, clusterGet c k = some n ∧ c.nodes[(k % (c.nodes.length : Int)).toNat]? = some n) := by
  by_cases hl : c.nodes.length = 0
  · refine ⟨⟨fun _ => hl, fun _ => ?_⟩, fun hne => absurd hl hne⟩
    unfold clusterGet
    rw [if_pos hl]
  · have hpos : (0 : Int) < (c.nodes.length : Int) := by
      exact_mod_cast Nat.pos_of_ne_zero hl
    have hnonneg : 0 ≤ k % (c.nodes.length : Int) := Int.emod_nonneg k (by omega)
    have hlt : k % (c.nodes.length : Int) < (c.nodes.length : Int) := Int.emod_lt_of_pos k hpos
    have hidx : (k % (c.nodes.length : Int)).toNat < c.nodes.length := by omega
    have hsome : c.nodes[(k % (c.nodes.length : Int)).toNat]? =
        some (c.nodes.get ⟨(k % (c.nodes.length : Int)).toNat, hidx⟩) :=
      List.getElem?_eq_getElem hidx
    constructor
    · constructor
      · intro hnone
        unfold clusterGet at hnone
        rw [if_neg hl, hsome] at hnone
        exact absurd hnone (by simp)
      · intro h
        exact absurd h hl
    · intro _
      refine ⟨hnonneg, hlt, c.nodes.get ⟨(k % (c.nodes.length : Int)).toNat, hidx⟩, ?_, hsome⟩
      unfold clusterGet
      rw [if_neg hl, hsome]

/-- Closed witness for `clusterGet_spec`, at the scenario cluster and the
negative key `-5`. -/
theorem clusterGet_spec_witness :
    demoCluster.nodes.length ≠ 0 ∧
    0 ≤ (-5 : Int) % (demoCluster.nodes.length : Int) ∧
    (-5 : Int) % (demoCluster.nodes.length : Int) < (demoCluster.nodes.length : Int) ∧
    ∃ n, clusterGet demoCluster (-5) = some n ∧
      demoCluster.nodes[((-5 : Int) % (demoCluster.nodes.length : Int)).toNat]? = some n := by
  refine ⟨by decide, (clusterGet_spec demoCluster (-5)).2 (by decide)⟩

/-- C3: the Ring is sorted strictly ascending by address in lexicographic
byte order, and on the scenario-B inputs `Get(k)` returns, for every
`k ∈ 0..5`, the node carrying the k-th element of the sorted address
sequence. -/
theorem ring_sorted_placement :
    (∀ (l : String) (s : List String), ((ringOf l s).map Node.addr).Sorted strLt) ∧
    clusterNew demoListen demoSeeds = .ok demoCluster ∧
    demoCluster.nodes.map Node.addr = demoSorted ∧
    (∀ k : Fin 6,
      ((clusterGet demoCluster ((k : Nat) : Int)).map Node.addr = demoSorted[(k : Nat)]?) ∧
      (clusterGet demoCluster ((k : Nat) : Int)).isSome = true) :=
  ⟨ringOf_map_addr_sorted, by decide, by decide, by decide⟩

/-- C1: Ring construction is deterministic - equal `(Listen, Seeds)` inputs
give equal construction results, any number of repeated constructions all
yield that one result, and the hundredfold scenario-A construction yields
identical six-node rings. -/
theorem clusterNew_deterministic :
    (∀ (l1 l2 : String) (s1 s2 : List String), l1 = l2 → s1 = s2 →
      clusterNew l1 s1 = clusterNew l2 s2) ∧
    (∀ (l : String) (s : List String) (n : Nat) (r : Except NewError Cluster),
      r ∈ List.replicate n (clusterNew l s) → r = clusterNew l s) ∧
    (List.replicate 100 (clusterNew demoListen demoSeeds)).all
      (fun r => r == clusterNew demoListen demoSeeds) = true ∧
    demoCluster.nodes.length = 6 :=
  ⟨fun _ _ _ _ hl hs => by rw [hl, hs],
   fun _ _ _ _ hr => List.eq_of_mem_replicate hr,
   by decide, by decide⟩

/-- Closed witness for `clusterNew_deterministic`, at the scenario inputs. -/
theorem clusterNew_deterministic_witness :
    clusterNew demoListen demoSeeds = clusterNew demoListen demoSeeds ∧
    Except.ok demoCluster = clusterNew demoListen demoSeeds :=
  ⟨clusterNew_deterministic.1 demoListen demoListen demoSeeds demoSeeds rfl rfl,
   clusterNew_deterministic.2.1 demoListen demoSeeds 3 (Except.ok demoCluster) (by decide)⟩

/-- C6: each distinct address of `{Listen} ∪ Seeds` appears exactly once in
the Ring (membership both ways and no duplicates), the ring length is the
number of distinct input addresses, and the self-flagged nodes are exactly
the one node addressed at the listen address. -/
theorem ring_coverage_self (l : String) (s : List String) :
    (∀ a, a ∈ (ringOf l s).map Node.addr ↔ a ∈ l :: s) ∧
    ((ringOf l s).map Node.addr).Nodup ∧
    (ringOf l s).length = ((l :: s).dedup).length ∧
    (ringOf l s).filter (fun n => n.self) = [⟨l, true⟩] := by
  refine ⟨fun a => (ringOf_map_addr_perm l s).mem_iff.trans (List.mem_dedup),
    ringOf_map_addr_nodup l s, ?_, ?_⟩
  · have := (ringOf_map_addr_perm l s).length_eq
    simpa using this
  · unfold ringOf
    rw [List.filter_map]
    have hmem : l ∈ List.insertionSort strLe ((l :: s).dedup) := by
      rw [List.mem_insertionSort]
      exact List.mem_dedup.mpr (List.mem_cons_self l s)
    have hnd : (List.insertionSort strLe ((l :: s).dedup)).Nodup :=
      (List.perm_insertionSort strLe _).nodup_iff.mpr ((l :: s).nodup_dedup)
    have hfe : (List.insertionSort strLe ((l :: s).dedup)).filter
        ((fun n : Node => n.self) ∘ (fun a => ⟨a, a == l⟩)) =
        (List.insertionSort strLe ((l :: s).dedup)).filter (fun a => a == l) := rfl
    rw [hfe, List.filter_beq, List.count_eq_one_of_mem hnd hmem]
    simp

/-- C7: `New` reports `ErrEmpty` exactly when the deduplicated union is
empty - which never happens, since the listen address is always injected -
never reports `ErrNoSelf`, raises the empty-listen `ConfigError` exactly for
an empty listen address, and succeeds otherwise. -/
theorem clusterNew_errors (l : String) (s : List String) :
    (clusterNew l s = .error .errEmpty ↔ ((l :: s).dedup).isEmpty = true) ∧
    clusterNew l s ≠ .error .errNoSelf ∧
    (clusterNew l s = .error .configEmptyListen ↔ l = "") ∧
    (l ≠ "" → clusterNew l s = .ok ⟨l, ringOf l s⟩) := by
  have hmem : l ∈ (l :: s).dedup := List.mem_dedup.mpr (List.mem_cons_self l s)
  have hne : ((l :: s).dedup).isEmpty = false := by
    cases hd : (l :: s).dedup with
    | nil => rw [hd] at hmem; exact absurd hmem (by simp)
    | cons x xs => rfl
  by_cases hl : l = ""
  · unfold clusterNew
    rw [if_pos hl]
    refine ⟨⟨fun h => by injection h with h2; exact absurd h2 (by simp), fun h => ?_⟩,
      fun h => by injection h with h2; exact absurd h2 (by simp),
      ⟨fun _ => hl, fun _ => rfl⟩, fun h => absurd hl h⟩
    rw [hne] at h
    exact absurd h (by simp)
  · unfold clusterNew
    rw [if_neg hl, hne, if_neg (by simp), if_neg (fun hc => hc hmem)]
    exact ⟨⟨fun h => by injection h, fun h => absurd h (by simp)⟩,
      fun h => by injection h, ⟨fun h => by injection h, fun h => absurd h hl⟩,
      fun _ => rfl⟩

/-- Closed witness for `clusterNew_errors`, at the scenario inputs. -/
theorem clusterNew_errors_witness :
    demoListen ≠ "" ∧ clusterNew demoListen demoSeeds = .ok ⟨demoListen, ringOf demoListen demoSeeds⟩ :=
  ⟨by decide, (clusterNew_errors demoListen demoSeeds).2.2.2 (by decide)⟩

/-- C4: `GetOther` excludes the local node - when the token's owner is the
self node it reports no node, and any node it does report is addressed away
from the cluster's listen address. -/
theorem getOther_self_exclusion (l : String) (s : List String) (t : String) :
    (∀ n, clusterGet ⟨l, ringOf l s⟩ (Int.ofNat (fnv1a32 t)) = some n → n.self = true →
      getOther ⟨l, ringOf l s⟩ t = none) ∧
    (∀ n, getOther ⟨l, ringOf l s⟩ t = some n → n.addr ≠ l) := by
  constructor
  · intro n hget hself
    unfold getOther
    rw [hget]
    show (if n.self = true then none else some n : Option Node) = none
    rw [if_pos hself]
  · intro n hres
    simp only [getOther] at hres
    cases hget : clusterGet ⟨l, ringOf l s⟩ (Int.ofNat (fnv1a32 t)) with
    | none => rw [hget] at hres; simp at hres
    | some m =>
      rw [hget] at hres
      by_cases hself : m.self = true
      · simp [hself] at hres
      · simp only [Bool.not_eq_true] at hself
        simp only [hself, Bool.false_eq_true, if_false, Option.some.injEq] at hres
        subst hres
        have hm : m ∈ ringOf l s := clusterGet_mem hget
        have hx := ringOf_self_eq hm
        rw [hself] at hx
        intro hc
        rw [hc] at hx
        simp at hx

/-- Closed witness for `getOther_self_exclusion`: on the scenario cluster the
token `access-token-0` resolves to the self node and is reported as local,
and the token `access-token-1` resolves to a node addressed away from the
listen address. -/
theorem getOther_self_exclusion_witness :
    getOther ⟨demoListen, ringOf demoListen demoSeeds⟩ "access-token-0" = none ∧
    Node.addr ⟨"127.0.0.1", false⟩ ≠ demoListen :=
  ⟨(getOther_self_exclusion demoListen demoSeeds "access-token-0").1
      ⟨"172.17.0.1", true⟩ (by decide) (by decide),
   (getOther_self_exclusion demoListen demoSeeds "access-token-1").2
      ⟨"127.0.0.1", false⟩ (by decide)⟩

/-- C8: in a singleton cluster - the membership union deduplicates to the
local address alone - `GetOther` reports every token as locally handled. -/
theorem getOther_singleton (l : String) (s : List String) (t : String)
    (h : (l :: s).dedup = [l]) :
    getOther ⟨l, ringOf l s⟩ t = none := by
  have hr : ringOf l s = [⟨l, true⟩] := by
    unfold ringOf
    rw [h]
    show [(⟨l, l == l⟩ : Node)] = [⟨l, true⟩]
    simp
  unfold getOther clusterGet
  rw [hr]
  simp [Int.emod_one]

/-- Closed witness for `getOther_singleton`, at a one-address cluster. -/
theorem getOther_singleton_witness :
    ("10.0.0.7" :: ["10.0.0.7"]).dedup = ["10.0.0.7"] ∧
    getOther ⟨"10.0.0.7", ringOf "10.0.0.7" ["10.0.0.7"]⟩ "access-token-0" = none :=
  ⟨by decide, getOther_singleton "10.0.0.7" ["10.0.0.7"] "access-token-0" (by decide)⟩

/-- Rings built from membership-equal inputs carry the same address list. -/
theorem ringOf_agree (l1 l2 : String) (s1 s2 : List String)
    (h : ∀ a, a ∈ l1 :: s1 ↔ a ∈ l2 :: s2) :
    (ringOf l1 s1).map Node.addr = (ringOf l2 s2).map Node.addr := by
  rw [ringOf_map_addr, ringOf_map_addr]
  have hperm : ((l1 :: s1).dedup).Perm ((l2 :: s2).dedup) :=
    (List.perm_ext_iff_of_nodup ((l1 :: s1).nodup_dedup) ((l2 :: s2).nodup_dedup)).mpr
      (fun a => by rw [List.mem_dedup, List.mem_dedup]; exact h a)
  have hp : (List.insertionSort strLe ((l1 :: s1).dedup)).Perm
      (List.insertionSort strLe ((l2 :: s2).dedup)) :=
    ((List.perm_insertionSort strLe _).trans hperm).trans
      (List.perm_insertionSort strLe _).symm
  exact List.eq_of_perm_of_sorted hp (List.sorted_insertionSort strLe _)
    (List.sorted_insertionSort strLe _)

/-- C2: any two Rings built from the same address set agree on the address
at every index regardless of which member is the listen address, and as a
consequence a forwarded request is never re-forwarded: the peer whose
address owns the token resolves it to itself and handles it locally, so
forward depth is bounded at 1. -/
theorem ring_agreement :
    (∀ (l1 l2 : String) (s1 s2 : List String),
      (∀ a, a ∈ l1 :: s1 ↔ a ∈ l2 :: s2) →
      (ringOf l1 s1).map Node.addr = (ringOf l2 s2).map Node.addr ∧
      ∀ k : Nat, ((ringOf l1 s1)[k]?).map Node.addr = ((ringOf l2 s2)[k]?).map Node.addr) ∧
    (∀ (l1 l2 : String) (s1 s2 : List String) (t : String) (n : Node),
      (∀ a, a ∈ l1 :: s1 ↔ a ∈ l2 :: s2) →
      getOther ⟨l1, ringOf l1 s1⟩ t = some n →
      n.addr = l2 →
      getOther ⟨l2, ringOf l2 s2⟩ t = none) := by
  constructor
  · intro l1 l2 s1 s2 h
    refine ⟨ringOf_agree l1 l2 s1 s2 h, fun k => ?_⟩
    rw [← List.getElem?_map, ← List.getElem?_map, ringOf_agree l1 l2 s1 s2 h]
  · intro l1 l2 s1 s2 t n hmem hget haddr
    have hagree := ringOf_agree l1 l2 s1 s2 hmem
    have hlen : (ringOf l1 s1).length = (ringOf l2 s2).length := by
      have h2 := congrArg List.length hagree
      simpa using h2
    simp only [getOther] at hget
    cases hg1 : clusterGet ⟨l1, ringOf l1 s1⟩ (Int.ofNat (fnv1a32 t)) with
    | none => rw [hg1] at hget; simp at hget
    | some m =>
      rw [hg1] at hget
      by_cases hself : m.self = true
      · simp [hself] at hget
      · simp only [Bool.not_eq_true] at hself
        simp only [hself, Bool.false_eq_true, if_false, Option.some.injEq] at hget
        subst hget
        unfold clusterGet at hg1
        by_cases hl1 : (ringOf l1 s1).length = 0
        · rw [if_pos hl1] at hg1
          exact absurd hg1 (by simp)
        · rw [if_neg hl1] at hg1
          have hl2 : ¬ (ringOf l2 s2).length = 0 := by omega
          have hpos : (0 : Int) < ((ringOf l1 s1).length : Int) := by
            exact_mod_cast Nat.pos_of_ne_zero hl1
          have hnonneg : 0 ≤ Int.ofNat (fnv1a32 t) % ((ringOf l1 s1).length : Int) :=
            Int.emod_nonneg _ (by omega)
          have hlt : Int.ofNat (fnv1a32 t) % ((ringOf l1 s1).length : Int) <
              ((ringOf l1 s1).length : Int) := Int.emod_lt_of_pos _ hpos
          have hi1 : (Int.ofNat (fnv1a32 t) % ((ringOf l1 s1).length : Int)).toNat <
              (ringOf l2 s2).length := by omega
          have h2some : (ringOf l2 s2)[(Int.ofNat (fnv1a32 t) %
                ((ringOf l1 s1).length : Int)).toNat]? =
              some ((ringOf l2 s2).get ⟨_, hi1⟩) :=
            List.getElem?_eq_getElem hi1
          have e1 : ((ringOf l1 s1).map Node.addr)[(Int.ofNat (fnv1a32 t) %
                ((ringOf l1 s1).length : Int)).toNat]? = some m.addr := by
            rw [List.getElem?_map, hg1]
            rfl
          have e2 : ((ringOf l2 s2).map Node.addr)[(Int.ofNat (fnv1a32 t) %
                ((ringOf l1 s1).length : Int)).toNat]? =
              some (((ringOf l2 s2).get ⟨_, hi1⟩).addr) := by
            rw [List.getElem?_map, h2some]
            rfl
          rw [hagree] at e1
          rw [e1] at e2
          have haddr2 : ((ringOf l2 s2).get ⟨_, hi1⟩).addr = m.addr :=
            (Option.some.inj e2).symm
          have hmem2 : (ringOf l2 s2).get ⟨_, hi1⟩ ∈ ringOf l2 s2 := List.get_mem _ _ hi1
          have hself2 : ((ringOf l2 s2).get ⟨_, hi1⟩).self = true := by
            have hx := ringOf_self_eq hmem2
            rw [hx, haddr2, haddr]
            simp
          unfold getOther clusterGet
          rw [if_neg hl2]
          have hidx : (Int.ofNat (fnv1a32 t) % ((ringOf l2 s2).length : Int)).toNat =
              (Int.ofNat (fnv1a32 t) % ((ringOf l1 s1).length : Int)).toNat := by
            rw [hlen]
          rw [hidx, h2some]
          show (if ((ringOf l2 s2).get ⟨(Int.ofNat (fnv1a32 t) %
                ((ringOf l1 s1).length : Int)).toNat, hi1⟩).self = true
              then none
              else some ((ringOf l2 s2).get ⟨(Int.ofNat (fnv1a32 t) %
                ((ringOf l1 s1).length : Int)).toNat, hi1⟩) : Option Node) = none
          rw [if_pos hself2]

/-- Closed witness for `ring_agreement`: the scenario cluster forwards the
token `access-token-1` to the peer at `127.0.0.1`, and the cluster built at
that peer from the same address set resolves the token locally. -/
theorem ring_agreement_witness :
    getOther ⟨"127.0.0.1",
      ringOf "127.0.0.1" ["172.17.0.2", "172.17.0.3", "172.17.0.1", "10.0.0.1", "8.8.8.8"]⟩
      "access-token-1" = none := by
  have hp : ("127.0.0.1" ::
      ["172.17.0.2", "172.17.0.3", "172.17.0.1", "10.0.0.1", "8.8.8.8"]).Perm
      (demoListen :: demoSeeds) := by decide
  exact ring_agreement.2 demoListen "127.0.0.1" demoSeeds
    ["172.17.0.2", "172.17.0.3", "172.17.0.1", "10.0.0.1", "8.8.8.8"]
    "access-token-1" ⟨"127.0.0.1", false⟩
    (fun a => (hp.mem_iff).symm) (by decide) rfl

/-- C9: `NewDaemon` replaces zero-valued options by their defaults and keeps
non-zero values unchanged - a zero session TTL becomes `DefaultTTL`, a zero
session TTC becomes `DefaultTTC`, and an empty storage engine name becomes
`StorageEnginePostgres`. -/
theorem newDaemon_defaults (opts : DaemonOpts) (d : DaemonOpts)
    (h : newDaemon opts = some d) :
    d.sessionTTL = (if opts.sessionTTL = 0 then DefaultTTL else opts.sessionTTL) ∧
    d.sessionTTC = (if opts.sessionTTC = 0 then DefaultTTC else opts.sessionTTC) ∧
    d.storage = (if opts.storage = "" then StorageEnginePostgres else opts.storage) := by
  unfold newDaemon at h
  cases hs : setPostgresConnectionParameters opts.postgresAddress with
  | none =>
    rw [hs] at h
    exact absurd h (by simp)
  | some addr =>
    rw [hs] at h
    injection h with h2
    subst h2
    exact ⟨rfl, rfl, rfl⟩

/-- Closed witness for `newDaemon_defaults`, at options carrying a zero TTL,
a non-zero TTC and an empty storage engine name. -/
theorem newDaemon_defaults_witness :
    (DaemonOpts.mk DefaultTTL 5 StorageEnginePostgres
        "postgres://localhost/test?sslmode=disable&timezone=utc").sessionTTL
      = (if (0 : Int) = 0 then DefaultTTL else (0 : Int)) ∧
    (DaemonOpts.mk DefaultTTL 5 StorageEnginePostgres
        "postgres://localhost/test?sslmode=disable&timezone=utc").sessionTTC
      = (if (5 : Int) = 0 then DefaultTTC else (5 : Int)) ∧
    (DaemonOpts.mk DefaultTTL 5 StorageEnginePostgres
        "postgres://localhost/test?sslmode=disable&timezone=utc").storage
      = (if ("" : String) = "" then StorageEnginePostgres else "") :=
  newDaemon_defaults ⟨0, 5, "", "postgres://localhost/test?sslmode=disable"⟩
    ⟨DefaultTTL, 5, StorageEnginePostgres,
      "postgres://localhost/test?sslmode=disable&timezone=utc"⟩ (by decide)

/-- Specification of `splitAtFirst`: a `none` result returns the whole list,
which does not contain the separator; a `some` result decomposes the list
around its first separator occurrence. -/
theorem splitAtFirst_spec (c : Char) : ∀ l : List Char,
    (∀ b, splitAtFirst c l = (b, none) → l = b ∧ c ∉ b) ∧
    (∀ b v, splitAtFirst c l = (b, some v) → l = b ++ c :: v ∧ c ∉ b) := by
  intro l
  induction l with
  | nil =>
    constructor
    · intro b h
      rw [show splitAtFirst c [] = ([], none) from rfl] at h
      injection h with h1 h2
      exact ⟨h1, h1 ▸ (by simp)⟩
    · intro b v h
      rw [show splitAtFirst c [] = ([], none) from rfl] at h
      injection h with h1 h2
      exact absurd h2 (by simp)
  | cons x xs ih =>
    rcases hsp : splitAtFirst c xs with ⟨b1, r2⟩
    by_cases hx : x = c
    · constructor
      · intro b h
        simp only [splitAtFirst, if_pos hx] at h
        injection h with h1 h2
        exact absurd h2 (by simp)
      · intro b v h
        simp only [splitAtFirst, if_pos hx] at h
        injection h with h1 h2
        injection h2 with h3
        subst h1
        subst h3
        subst hx
        exact ⟨rfl, by simp⟩
    · constructor
      · intro b h
        simp only [splitAtFirst, if_neg hx, hsp] at h
        injection h with h1 h2
        subst h2
        obtain ⟨he, hm⟩ := ih.1 b1 hsp
        subst h1
        refine ⟨by rw [he], ?_⟩
        intro hc
        rcases List.mem_cons.mp hc with h3 | h4
        · exact hx h3.symm
        · exact hm h4
      · intro b v h
        simp only [splitAtFirst, if_neg hx, hsp] at h
        injection h with h1 h2
        subst h2
        obtain ⟨he, hm⟩ := ih.2 b1 v hsp
        subst h1
        refine ⟨by rw [List.cons_append, ← he], ?_⟩
        intro hc
        rcases List.mem_cons.mp hc with h3 | h4
        · exact hx h3.symm
        · exact hm h4

/-- Computation rule for `splitAtFirst` on a list assembled around its first
separator occurrence. -/
theorem splitAtFirst_append (c : Char) :
    ∀ (b : List Char), c ∉ b → ∀ v : List Char, splitAtFirst c (b ++ c :: v) = (b, some v)
  | [], _, v => by simp [splitAtFirst]
  | x :: b, h, v => by
    have hx : ¬ x = c := fun hc => h (hc ▸ List.mem_cons_self x b)
    have hb : c ∉ b := fun hc => h (List.mem_cons_of_mem x hc)
    simp only [List.cons_append, splitAtFirst, if_neg hx, List.append_eq]
    rw [splitAtFirst_append c b hb v]

/-- `splitAll` always returns at least one component. -/
theorem splitAll_ne_nil (c : Char) : ∀ l : List Char, splitAll c l ≠ []
  | [] => by simp [splitAll]
  | x :: xs => by
    simp only [splitAll]
    rcases hsp : splitAll c xs with _ | ⟨h, t⟩
    · simp
    · by_cases hx : x = c <;> simp [hx]

/-- Computation rule for `splitAll` on a cons cell, phrased through the
always-cons shape of the recursive result. -/
theorem splitAll_cons (c x : Char) (xs h1 : List Char) (t1 : List (List Char))
    (hsp : splitAll c xs = h1 :: t1) :
    splitAll c (x :: xs) = if x = c then [] :: h1 :: t1 else (x :: h1) :: t1 := by
  simp only [splitAll, hsp]

/-- Every component of `splitAll` is separator-free and drawn from the input
characters. -/
theorem splitAll_mem_spec (c : Char) : ∀ (l : List Char) (comp : List Char),
    comp ∈ splitAll c l → c ∉ comp ∧ ∀ x ∈ comp, x ∈ l := by
  intro l
  induction l with
  | nil =>
    intro comp h
    simp [splitAll] at h
    subst h
    exact ⟨by simp, by simp⟩
  | cons x xs ih =>
    intro comp h
    rcases hsp : splitAll c xs with _ | ⟨h1, t1⟩
    · exact absurd hsp (splitAll_ne_nil c xs)
    · rw [splitAll_cons c x xs h1 t1 hsp] at h
      have hh1 : h1 ∈ splitAll c xs := by rw [hsp]; exact List.mem_cons_self h1 t1
      by_cases hx : x = c
      · rw [if_pos hx] at h
        rcases List.mem_cons.mp h with h2 | h3
        · subst h2
          exact ⟨by simp, by simp⟩
        · have h4 : comp ∈ splitAll c xs := by rw [hsp]; exact h3
          obtain ⟨hn, hsub⟩ := ih comp h4
          exact ⟨hn, fun y hy => List.mem_cons_of_mem x (hsub y hy)⟩
      · rw [if_neg hx] at h
        rcases List.mem_cons.mp h with h2 | h3
        · subst h2
          obtain ⟨hn, hsub⟩ := ih h1 hh1
          refine ⟨?_, ?_⟩
          · intro hc
            rcases List.mem_cons.mp hc with h5 | h6
            · exact hx h5.symm
            · exact hn h6
          · intro y hy
            rcases List.mem_cons.mp hy with h5 | h6
            · exact h5 ▸ List.mem_cons_self x xs
            · exact List.mem_cons_of_mem x (hsub y h6)
        · have h4 : comp ∈ splitAll c xs := by rw [hsp]; exact List.mem_cons_of_mem h1 h3
          obtain ⟨hn, hsub⟩ := ih comp h4
          exact ⟨hn, fun y hy => List.mem_cons_of_mem x (hsub y hy)⟩

/-- `splitAll` of a separator-free list is that single component. -/
theorem splitAll_no_sep (c : Char) : ∀ l : List Char, c ∉ l → splitAll c l = [l]
  | [], _ => rfl
  | x :: xs, h => by
    have hx : ¬ x = c := fun hc => h (hc ▸ List.mem_cons_self x xs)
    have hxs : c ∉ xs := fun hc => h (List.mem_cons_of_mem x hc)
    rw [splitAll_cons c x xs xs [] (splitAll_no_sep c xs hxs), if_neg hx]

/-- `splitAll` of a list assembled around a separator is the separator-free
prefix followed by the components of the remainder. -/
theorem splitAll_append (c : Char) :
    ∀ (b : List Char), c ∉ b → ∀ r : List Char, splitAll c (b ++ c :: r) = b :: splitAll c r
  | [], _, r => by
    rw [List.nil_append]
    rcases hsp : splitAll c r with _ | ⟨h1, t1⟩
    · exact absurd hsp (splitAll_ne_nil c r)
    · rw [splitAll_cons c c r h1 t1 hsp, if_pos rfl]
  | x :: b, h, r => by
    have hx : ¬ x = c := fun hc => h (hc ▸ List.mem_cons_self x b)
    have hb : c ∉ b := fun hc => h (List.mem_cons_of_mem x hc)
    have hrec := splitAll_append c b hb r
    rcases hsp : splitAll c r with _ | ⟨h1, t1⟩
    · exact absurd hsp (splitAll_ne_nil c r)
    · rw [hsp] at hrec
      rw [List.cons_append, splitAll_cons c x (b ++ c :: r) b (h1 :: t1) hrec, if_neg hx]

/-- Every pair produced by `parseQuery` is clean and draws its characters
from the raw query. -/
theorem parseQuery_pair_spec (q : List Char) (p : List Char × List Char)
    (h : p ∈ parseQuery q) :
    cleanPair p ∧ (∀ ch ∈ p.1, ch ∈ q) ∧ ∀ ch ∈ p.2, ch ∈ q := by
  unfold parseQuery at h
  rcases List.mem_filterMap.mp h with ⟨comp, hcomp, hf⟩
  obtain ⟨hamp, hsub⟩ := splitAll_mem_spec '&' q comp hcomp
  unfold parseQueryComp at hf
  by_cases hsemi : comp.contains ';'
  · rw [if_pos hsemi] at hf
    exact absurd hf (by simp)
  · rw [if_neg hsemi] at hf
    have hsemi2 : ';' ∉ comp := by
      intro hc
      exact hsemi (by simpa using hc)
    by_cases hemp : comp.isEmpty
    · rw [if_pos hemp] at hf
      exact absurd hf (by simp)
    · rw [if_neg hemp] at hf
      rcases hsp : splitAtFirst '=' comp with ⟨k, r⟩
      rw [hsp] at hf
      cases r with
      | none =>
        injection hf with hf2
        subst hf2
        obtain ⟨hce, hknot⟩ := (splitAtFirst_spec '=' comp).1 k hsp
        subst hce
        exact ⟨⟨hamp, by simp, hknot, hsemi2, by simp⟩, fun ch hch => hsub ch hch, by simp⟩
      | some v =>
        injection hf with hf2
        subst hf2
        obtain ⟨hce, hkeq⟩ := (splitAtFirst_spec '=' comp).2 k v hsp
        subst hce
        refine ⟨⟨fun hc => hamp (List.mem_append_left _ hc),
          fun hc => hamp (List.mem_append_right _ (List.mem_cons_of_mem _ hc)),
          hkeq,
          fun hc => hsemi2 (List.mem_append_left _ hc),
          fun hc => hsemi2 (List.mem_append_right _ (List.mem_cons_of_mem _ hc))⟩,
          fun ch hch => hsub ch (List.mem_append_left _ hch),
          fun ch hch => hsub ch (List.mem_append_right _ (List.mem_cons_of_mem _ hch))⟩

/-- Rendering a clean pair and re-processing the component recovers the
pair. -/
theorem parseQueryComp_encodePair (p : List Char × List Char) (h : cleanPair p) :
    parseQueryComp (encodePair p) = some p := by
  obtain ⟨k, v⟩ := p
  obtain ⟨h1, h2, h3, h4, h5⟩ := h
  have hsemi : (k ++ '=' :: v).contains ';' = false := by
    have : ';' ∉ k ++ '=' :: v := by
      intro hc
      rcases List.mem_append.mp hc with hc1 | hc2
      · exact h4 hc1
      · rcases List.mem_cons.mp hc2 with hc3 | hc4
        · exact absurd hc3 (by decide)
        · exact h5 hc4
    simp [this]
  unfold parseQueryComp encodePair
  rw [hsemi]
  simp only [Bool.false_eq_true, if_false]
  rw [if_neg (by simp), splitAtFirst_append '=' k h3 v]

/-- The rendered form of a nonempty pair list is nonempty. -/
theorem joinAmp_encodePair_ne_nil :
    ∀ ps : List (List Char × List Char), ps ≠ [] → joinAmp (ps.map encodePair) ≠ []
  | [], h => absurd rfl h
  | [p], _ => by
    simp only [List.map_cons, List.map_nil, joinAmp, encodePair]
    simp
  | p :: q :: t, _ => by
    simp only [List.map_cons, joinAmp, encodePair]
    simp

/-- Characters of the rendered query come from its pairs or are the two
separator characters. -/
theorem mem_joinAmp_encodePair :
    ∀ (ps : List (List Char × List Char)) (ch : Char), ch ∈ joinAmp (ps.map encodePair) →
      ch = '&' ∨ ch = '=' ∨ ∃ p ∈ ps, ch ∈ p.1 ∨ ch ∈ p.2
  | [], ch, h => by simp [joinAmp] at h
  | [p], ch, h => by
    simp only [List.map_cons, List.map_nil, joinAmp, encodePair] at h
    rcases List.mem_append.mp h with h1 | h2
    · exact Or.inr (Or.inr ⟨p, by simp, Or.inl h1⟩)
    · rcases List.mem_cons.mp h2 with h3 | h4
      · exact Or.inr (Or.inl h3)
      · exact Or.inr (Or.inr ⟨p, by simp, Or.inr h4⟩)
  | p :: q :: t, ch, h => by
    simp only [List.map_cons, joinAmp] at h
    rcases List.mem_append.mp h with h1 | h2
    · unfold encodePair at h1
      rcases List.mem_append.mp h1 with h3 | h4
      · exact Or.inr (Or.inr ⟨p, by simp, Or.inl h3⟩)
      · rcases List.mem_cons.mp h4 with h5 | h6
        · exact Or.inr (Or.inl h5)
        · exact Or.inr (Or.inr ⟨p, by simp, Or.inr h6⟩)
    · rcases List.mem_cons.mp h2 with h3 | h4
      · exact Or.inl h3
      · rcases mem_joinAmp_encodePair (q :: t) ch (by simpa using h4) with h5 | h6 | ⟨r, hr, hm⟩
        · exact Or.inl h5
        · exact Or.inr (Or.inl h6)
        · exact Or.inr (Or.inr ⟨r, List.mem_cons_of_mem p hr, hm⟩)

/-- Parsing the rendered form of a clean pair list recovers the list. -/
theorem parseQuery_joinAmp :
    ∀ ps : List (List Char × List Char), (∀ p ∈ ps, cleanPair p) →
      parseQuery (joinAmp (ps.map encodePair)) = ps
  | [], _ => rfl
  | [p], h => by
    have hp := h p (by simp)
    obtain ⟨h1, h2, h3, h4, h5⟩ := hp
    have hamp : '&' ∉ encodePair p := by
      unfold encodePair
      intro hc
      rcases List.mem_append.mp hc with hc1 | hc2
      · exact h1 hc1
      · rcases List.mem_cons.mp hc2 with hc3 | hc4
        · exact absurd hc3 (by decide)
        · exact h2 hc4
    simp only [List.map_cons, List.map_nil, joinAmp]
    unfold parseQuery
    rw [splitAll_no_sep '&' (encodePair p) hamp, List.filterMap_cons,
      parseQueryComp_encodePair p ⟨h1, h2, h3, h4, h5⟩]
    rfl
  | p :: q :: t, h => by
    have hp := h p (by simp)
    obtain ⟨h1, h2, h3, h4, h5⟩ := hp
    have hamp : '&' ∉ encodePair p := by
      unfold encodePair
      intro hc
      rcases List.mem_append.mp hc with hc1 | hc2
      · exact h1 hc1
      · rcases List.mem_cons.mp hc2 with hc3 | hc4
        · exact absurd hc3 (by decide)
        · exact h2 hc4
    have hrest := parseQuery_joinAmp (q :: t) (fun r hr => h r (List.mem_cons_of_mem p hr))
    simp only [List.map_cons, joinAmp] at hrest ⊢
    unfold parseQuery at hrest ⊢
    rw [splitAll_append '&' (encodePair p) hamp, List.filterMap_cons,
      parseQueryComp_encodePair p ⟨h1, h2, h3, h4, h5⟩, hrest]

/-- Core of the address rewrite: from a parsed address, the rewritten
address parses back to the same prefix with a query that contains
`timezone=utc` and preserves all other pairs. -/
theorem spcp_build (addr : String) (u : GoURL)
    (hctlf : addr.data.any isCtlChar = false)
    (hbsub : ∀ ch ∈ u.beforeQuery, ch ∈ addr.data)
    (hqsub : ∀ ch ∈ u.rawQuery, ch ∈ addr.data)
    (hnoq : '?' ∉ u.beforeQuery)
    (hu : urlParse addr.data = some u) :
    ∃ addr2 u2, setPostgresConnectionParameters addr = some addr2 ∧
      urlParse addr2.data = some u2 ∧ u2.beforeQuery = u.beforeQuery ∧
      (timezoneKey, utcValue) ∈ parseQuery u2.rawQuery ∧
      ((parseQuery u2.rawQuery).filter (fun p => p.1 != timezoneKey)).Perm
        ((parseQuery u.rawQuery).filter (fun p => p.1 != timezoneKey)) := by
  have hclean2 : ∀ p ∈ setTimezoneUTC (parseQuery u.rawQuery), cleanPair p := by
    intro p hp
    unfold setTimezoneUTC at hp
    rcases List.mem_append.mp hp with hp1 | hp2
    · exact (parseQuery_pair_spec u.rawQuery p (List.mem_of_mem_filter hp1)).1
    · rw [List.mem_singleton] at hp2
      subst hp2
      decide
  have hsclean : ∀ p ∈ List.insertionSort pairKeyLt (setTimezoneUTC (parseQuery u.rawQuery)),
      cleanPair p := by
    intro p hp
    exact hclean2 p ((List.mem_insertionSort pairKeyLt).mp hp)
  have hne2 : setTimezoneUTC (parseQuery u.rawQuery) ≠ [] := by
    unfold setTimezoneUTC
    simp
  have hsne : List.insertionSort pairKeyLt (setTimezoneUTC (parseQuery u.rawQuery)) ≠ [] := by
    intro hc
    have hl := (List.perm_insertionSort pairKeyLt (setTimezoneUTC (parseQuery u.rawQuery))).length_eq
    rw [hc] at hl
    exact hne2 (List.length_eq_zero.mp hl.symm)
  have hence : encodeQuery (setTimezoneUTC (parseQuery u.rawQuery)) ≠ [] :=
    joinAmp_encodePair_ne_nil _ hsne
  have hie : (encodeQuery (setTimezoneUTC (parseQuery u.rawQuery))).isEmpty = false := by
    cases henc2 : encodeQuery (setTimezoneUTC (parseQuery u.rawQuery)) with
    | nil => exact absurd henc2 hence
    | cons a b => rfl
  have hstr : urlString ⟨u.beforeQuery, encodeQuery (setTimezoneUTC (parseQuery u.rawQuery))⟩ =
      u.beforeQuery ++ '?' :: encodeQuery (setTimezoneUTC (parseQuery u.rawQuery)) := by
    unfold urlString
    rw [hie]
    simp
  have hround : parseQuery (encodeQuery (setTimezoneUTC (parseQuery u.rawQuery))) =
      List.insertionSort pairKeyLt (setTimezoneUTC (parseQuery u.rawQuery)) :=
    parseQuery_joinAmp _ hsclean
  have htzctl : ∀ x ∈ timezoneKey, isCtlChar x = false := by decide
  have hutcctl : ∀ x ∈ utcValue, isCtlChar x = false := by decide
  have hany2 : (u.beforeQuery ++ '?' :: encodeQuery (setTimezoneUTC (parseQuery u.rawQuery))).any
      isCtlChar = false := by
    rw [List.any_eq_false]
    intro ch hch
    rcases List.mem_append.mp hch with h1 | h2
    · exact Bool.not_eq_true _ ▸ (by
        have := List.any_eq_false.mp hctlf ch (hbsub ch h1)
        simpa using this)
    · rcases List.mem_cons.mp h2 with h3 | h4
      · subst h3
        decide
      · rcases mem_joinAmp_encodePair _ ch h4 with h5 | h6 | ⟨p, hp, hm⟩
        · subst h5
          decide
        · subst h6
          decide
        · have hp2 := (List.mem_insertionSort pairKeyLt).mp hp
          unfold setTimezoneUTC at hp2
          rcases List.mem_append.mp hp2 with hp3 | hp4
          · have hps := parseQuery_pair_spec u.rawQuery p (List.mem_of_mem_filter hp3)
            rcases hm with hm1 | hm2
            · have := List.any_eq_false.mp hctlf ch (hqsub ch (hps.2.1 ch hm1))
              simpa using this
            · have := List.any_eq_false.mp hctlf ch (hqsub ch (hps.2.2 ch hm2))
              simpa using this
          · rw [List.mem_singleton] at hp4
            subst hp4
            rcases hm with hm1 | hm2
            · simp [htzctl ch hm1]
            · simp [hutcctl ch hm2]
  have hsp2 : splitAtFirst '?' (u.beforeQuery ++ '?' ::
      encodeQuery (setTimezoneUTC (parseQuery u.rawQuery))) =
      (u.beforeQuery, some (encodeQuery (setTimezoneUTC (parseQuery u.rawQuery)))) :=
    splitAtFirst_append '?' u.beforeQuery hnoq _
  refine ⟨⟨urlString ⟨u.beforeQuery, encodeQuery (setTimezoneUTC (parseQuery u.rawQuery))⟩⟩,
    ⟨u.beforeQuery, encodeQuery (setTimezoneUTC (parseQuery u.rawQuery))⟩, ?_, ?_, rfl, ?_, ?_⟩
  · unfold setPostgresConnectionParameters
    rw [hu]
  · show urlParse (urlString ⟨u.beforeQuery, encodeQuery (setTimezoneUTC (parseQuery u.rawQuery))⟩)
      = some ⟨u.beforeQuery, encodeQuery (setTimezoneUTC (parseQuery u.rawQuery))⟩
    rw [hstr]
    unfold urlParse
    rw [hany2]
    simp only [Bool.false_eq_true, if_false, hsp2]
  · show (timezoneKey, utcValue) ∈ parseQuery (encodeQuery (setTimezoneUTC (parseQuery u.rawQuery)))
    rw [hround, List.mem_insertionSort]
    unfold setTimezoneUTC
    exact List.mem_append_right _ (by simp)
  · show ((parseQuery (encodeQuery (setTimezoneUTC (parseQuery u.rawQuery)))).filter
        (fun p => p.1 != timezoneKey)).Perm
      ((parseQuery u.rawQuery).filter (fun p => p.1 != timezoneKey))
    rw [hround]
    refine ((List.perm_insertionSort pairKeyLt _).filter _).trans ?_
    unfold setTimezoneUTC
    rw [List.filter_append]
    have hz : List.filter (fun p : List Char × List Char => p.1 != timezoneKey)
        [(timezoneKey, utcValue)] = [] := by simp
    rw [hz, List.append_nil, List.filter_filter]
    have hc : List.filter (fun p : List Char × List Char =>
          (p.1 != timezoneKey) && (p.1 != timezoneKey)) (parseQuery u.rawQuery) =
        List.filter (fun p => p.1 != timezoneKey) (parseQuery u.rawQuery) :=
      List.filter_congr (fun x _ => by rw [Bool.and_self])
    rw [hc]

/-- C10: `NewDaemon` rewrites the postgres address so that its query string
contains `timezone=utc` - overwriting any `timezone` pair already present
and leaving the rest of the URL equivalent (same pre-query prefix, same
remaining pairs) - and returns an error without constructing a daemon
exactly when the address fails URL parsing. -/
theorem newDaemon_postgres (opts : DaemonOpts) :
    (newDaemon opts = none ↔ urlParse opts.postgresAddress.data = none) ∧
    (∀ u, urlParse opts.postgresAddress.data = some u →
      ∃ d u2, newDaemon opts = some d ∧
        urlParse d.postgresAddress.data = some u2 ∧
        u2.beforeQuery = u.beforeQuery ∧
        (timezoneKey, utcValue) ∈ parseQuery u2.rawQuery ∧
        ((parseQuery u2.rawQuery).filter (fun p => p.1 != timezoneKey)).Perm
          ((parseQuery u.rawQuery).filter (fun p => p.1 != timezoneKey))) := by
  cases hu : urlParse opts.postgresAddress.data with
  | none =>
    have hspcp : setPostgresConnectionParameters opts.postgresAddress = none := by
      unfold setPostgresConnectionParameters
      rw [hu]
    constructor
    · constructor
      · intro _
        exact rfl
      · intro _
        unfold newDaemon
        rw [hspcp]
    · intro u hu2
      exact absurd hu2 (by simp)
  | some u0 =>
    have hparse := hu
    unfold urlParse at hparse
    by_cases hctl : opts.postgresAddress.data.any isCtlChar
    · rw [if_pos hctl] at hparse
      exact absurd hparse (by simp)
    · rw [if_neg hctl] at hparse
      have hctlf : opts.postgresAddress.data.any isCtlChar = false := by simpa using hctl
      rcases hsp0 : splitAtFirst '?' opts.postgresAddress.data with ⟨b0, r0⟩
      rw [hsp0] at hparse
      have hbuild : ∃ addr2 u2,
          setPostgresConnectionParameters opts.postgresAddress = some addr2 ∧
          urlParse addr2.data = some u2 ∧ u2.beforeQuery = u0.beforeQuery ∧
          (timezoneKey, utcValue) ∈ parseQuery u2.rawQuery ∧
          ((parseQuery u2.rawQuery).filter (fun p => p.1 != timezoneKey)).Perm
            ((parseQuery u0.rawQuery).filter (fun p => p.1 != timezoneKey)) := by
        cases r0 with
        | none =>
          injection hparse with h2
          obtain ⟨he, hq⟩ := (splitAtFirst_spec '?' opts.postgresAddress.data).1 b0 hsp0
          subst h2
          exact spcp_build opts.postgresAddress ⟨b0, []⟩ hctlf
            (fun ch hch => by rw [he]; exact hch)
            (fun ch hch => absurd hch (List.not_mem_nil ch)) hq hu
        | some q0 =>
          injection hparse with h2
          obtain ⟨he, hq⟩ := (splitAtFirst_spec '?' opts.postgresAddress.data).2 b0 q0 hsp0
          subst h2
          refine spcp_build opts.postgresAddress ⟨b0, q0⟩ hctlf ?_ ?_ hq hu
          · intro ch hch
            rw [he]
            exact List.mem_append_left _ hch
          · intro ch hch
            rw [he]
            exact List.mem_append_right _ (List.mem_cons_of_mem _ hch)
      obtain ⟨addr2, u2, hs1, hs2, hs3, hs4, hs5⟩ := hbuild
      constructor
      · constructor
        · intro hnd
          unfold newDaemon at hnd
          rw [hs1] at hnd
          exact absurd hnd (by simp)
        · intro hc
          exact absurd hc (by simp)
      · intro u hu2
        injection hu2 with hu3
        subst hu3
        refine ⟨⟨if opts.sessionTTL = 0 then DefaultTTL else opts.sessionTTL,
          if opts.sessionTTC = 0 then DefaultTTC else opts.sessionTTC,
          if opts.storage = "" then StorageEnginePostgres else opts.storage, addr2⟩,
          u2, ?_, hs2, hs3, hs4, hs5⟩
        unfold newDaemon
        rw [hs1]

/-- Closed witness for `newDaemon_postgres`, at a postgres address carrying
an `sslmode` pair and no `timezone` pair. -/
theorem newDaemon_postgres_witness :
    ∃ d u2, newDaemon ⟨0, 5, "", "postgres://localhost/test?sslmode=disable"⟩ = some d ∧
      urlParse d.postgresAddress.data = some u2 ∧
      u2.beforeQuery = "postgres://localhost/test".data ∧
      (timezoneKey, utcValue) ∈ parseQuery u2.rawQuery ∧
      ((parseQuery u2.rawQuery).filter (fun p => p.1 != timezoneKey)).Perm
        ((parseQuery "sslmode=disable".data).filter (fun p => p.1 != timezoneKey)) :=
  (newDaemon_postgres ⟨0, 5, "", "postgres://localhost/test?sslmode=disable"⟩).2
    ⟨"postgres://localhost/test".data, "sslmode=disable".data⟩ (by decide)
